import Mathlib

/-!
# Verification of the airis-mcp-supabase-selfhost core

Shallow embedding of the core logic of the MCP server found in `server.ts`
(shipped alongside the repository README): the SQL safety classifier
(`isMutatingSql`, `isExplain`), the `sbsh_execute_sql` handler with its
row-limit post-processing, the `sbsh_introspect_schema` catalog digest
builder, the `sbsh_get_table_doc` table-name resolution, and the
`sbsh_postgrest_get` passthrough's guard chain.

Strings are modelled as Lean `String` / `List Char`; the JavaScript regular
expressions are embedded as explicit recursive scanners with the same
semantics (ASCII word characters `[A-Za-z0-9_]`, whitespace class for `\s`,
ASCII case folding for the `i` flag).  The database engine is external: each
handler takes the rows the engine would return as an explicit argument and
additionally returns the list of queries it actually issued, so that
"no query reaches the engine" is expressible.
-/

set_option autoImplicit false

deriving instance DecidableEq for Except

namespace AirisSbsh

/-! ## Character classes (JS regex `\w` and `\s`, ASCII fragment) -/

/-- JS regex word character `\w` = `[A-Za-z0-9_]`. -/
def isWordChar (c : Char) : Bool :=
  ('a' ≤ c && c ≤ 'z') || ('A' ≤ c && c ≤ 'Z') || ('0' ≤ c && c ≤ '9') || c = '_'

/-- JS regex whitespace `\s` (ASCII fragment: space, tab, LF, VT, FF, CR). -/
def isWS (c : Char) : Bool :=
  c = ' ' || c = '\t' || c = '\n' || c = Char.ofNat 11 || c = Char.ofNat 12 || c = '\r'

/-! ## Case-insensitive literal matching (regex `i` flag) -/

/-- Match the literal pattern `p` case-insensitively at the head of `s`,
returning the remainder of `s` on success. -/
def matchCI : List Char → List Char → Option (List Char)
  | [], s => some s
  | _ :: _, [] => none
  | p :: ps, c :: cs => if c.toLower = p.toLower then matchCI ps cs else none

/-- The trailing `\b` of the deny regex: the next character (if any) is not a
word character.  All deny-list keywords end in a letter, so this is exactly
the word-boundary condition there. -/
def noWordAhead : List Char → Bool
  | [] => true
  | c :: _ => !isWordChar c

/-- The leading `\b` of the deny regex, as a condition on the character
preceding the match position (`none` = start of string).  All deny-list
keywords begin with a letter, so this is exactly the word-boundary
condition there. -/
def boundaryBefore : Option Char → Bool
  | none => true
  | some c => !isWordChar c

/-- The plain (single-word) alternatives of the deny list in
`isMutatingSql`'s regex; `SET\s+ROLE` is handled by `matchSetRole`. -/
def denyKeywords : List (List Char) :=
  ["INSERT", "UPDATE", "DELETE", "MERGE", "TRUNCATE", "ALTER", "DROP",
   "CREATE", "REINDEX", "VACUUM", "GRANT", "REVOKE", "COPY", "ANALYZE",
   "BEGIN", "COMMIT", "ROLLBACK"].map String.toList

/-- Match the `SET\s+ROLE` alternative at the head of `s`.  The greedy
whitespace consumption is equivalent to the regex's `\s+` because `ROLE`
starts with a non-whitespace character. -/
def matchSetRole (s : List Char) : Option (List Char) :=
  match matchCI "SET".toList s with
  | none => none
  | some rest =>
    match rest with
    | [] => none
    | c :: cs =>
      if isWS c then matchCI "ROLE".toList (cs.dropWhile isWS) else none

/-- Does some deny-list alternative match at the head of `s`, with the
trailing word boundary satisfied? -/
def kwMatchAt (s : List Char) : Bool :=
  (denyKeywords.any fun kw =>
    match matchCI kw s with
    | some rest => noWordAhead rest
    | none => false) ||
  (match matchSetRole s with
   | some rest => noWordAhead rest
   | none => false)

/-- Scan of the deny regex over every position of the statement; `prev` is
the character just before the current position (`none` at the start). -/
def mutScan : Option Char → List Char → Bool
  | _, [] => false
  | prev, c :: cs => (boundaryBefore prev && kwMatchAt (c :: cs)) || mutScan (some c) cs

/-- `isMutatingSql` from the source:
`/\b(INSERT|UPDATE|DELETE|MERGE|TRUNCATE|ALTER|DROP|CREATE|REINDEX|VACUUM|GRANT|REVOKE|COPY|ANALYZE|SET\s+ROLE|BEGIN|COMMIT|ROLLBACK)\b/i.test(sql)`. -/
def isMutatingSql (sql : String) : Bool :=
  mutScan none sql.toList

/-- `isExplain` from the source: `/^\s*EXPLAIN\b/i.test(sql)`.  The greedy
`\s*` is equivalent to `dropWhile` because `EXPLAIN` starts with a
non-whitespace character. -/
def isExplain (sql : String) : Bool :=
  match matchCI "EXPLAIN".toList (sql.toList.dropWhile isWS) with
  | some rest => noWordAhead rest
  | none => false

/-! ## Error taxonomy

Every failure in the handlers is a `throw new Error(message)`; the
constructors below name them and `errMessage` reproduces the exact message
strings of the source. -/

inductive Err where
  | featureDisabled (feature : String)
  | sqlRequired
  | tableRequired
  | readOnlyDenied
  | jwtNotConfigured
  | postgrestError (status : Nat) (body : String)
deriving DecidableEq

def errMessage : Err → String
  | .featureDisabled f => "Feature \"" ++ f ++ "\" is disabled"
  | .sqlRequired => "SQL query is required"
  | .tableRequired => "Table name is required"
  | .readOnlyDenied =>
      "READ_ONLY mode: DML/DDL/DCL operations are blocked. Only SELECT and EXPLAIN are allowed."
  | .jwtNotConfigured => "POSTGREST_JWT is not configured"
  | .postgrestError status body =>
      "PostgREST error (" ++ toString status ++ "): " ++ body

/-! ## `sbsh_execute_sql`

The database engine is external: the rows it would return for the statement
are an explicit argument `dbRows`.  The second component of the result is
the list of SQL texts actually dispatched to the engine. -/

inductive ExecOutcome (α : Type) where
  | err (e : Err)
  | explainResult (plan : List α)
  | queryResult (rows : List α) (rowCount : Nat) (truncated : Bool)
deriving DecidableEq

/-- `Array.prototype.slice(0, e)`: a negative end index counts from the end
of the array (`max (length + e) 0`), a non-negative one is clamped to the
length. -/
def jsSliceTo {α : Type} (l : List α) (e : Int) : List α :=
  if e < 0 then l.take ((l.length + e).toNat)
  else l.take (min e (l.length : Int)).toNat

/-- The `sbsh_execute_sql` handler: feature gate, argument coercion
(`String(params?.sql ?? '')`, `Math.min(Number(params?.limit ?? 100), 1000)`),
emptiness validation (`!sql.trim()`), READ_ONLY safety gate, then either the
EXPLAIN path or the row-limited query path
(`rows.slice(0, limit)`, `truncated: result.rows.length > limit`). -/
def executeSql {α : Type} (features : List String) (readOnly : Bool)
    (sqlArg : Option String) (limitArg : Option Int) (dbRows : List α) :
    ExecOutcome α × List String :=
  if "database" ∈ features then
    let sql := sqlArg.getD ""
    let limit : Int := min (limitArg.getD 100) 1000
    if sql.toList.all isWS then (.err .sqlRequired, [])
    else if readOnly && !isExplain sql && isMutatingSql sql then
      (.err .readOnlyDenied, [])
    else if isExplain sql then (.explainResult dbRows, [sql])
    else
      (.queryResult (jsSliceTo dbRows limit) dbRows.length
        (decide ((dbRows.length : Int) > limit)), [sql])
  else (.err (.featureDisabled "database"), [])

def ExecOutcome.rowsOut {α : Type} : ExecOutcome α → Option (List α)
  | .queryResult r _ _ => some r
  | _ => none

def ExecOutcome.truncatedOut {α : Type} : ExecOutcome α → Option Bool
  | .queryResult _ _ t => some t
  | _ => none

/-! ## `sbsh_introspect_schema`: catalog row types and digest builder -/

structure ColumnRow where
  table_schema : String
  table_name : String
  column_name : String
  data_type : String
  is_nullable : String
deriving DecidableEq

structure IndexRow where
  schemaname : String
  tablename : String
  indexname : String
  indexdef : String
deriving DecidableEq

structure ConstraintRow where
  schema : String
  table : String
  conname : String
  contype : String
deriving DecidableEq

structure PolicyRow where
  schema : String
  table : String
  policy_name : String
  cmd : String
deriving DecidableEq

structure ColEntry where
  name : String
  type : String
  nullable : Bool
deriving DecidableEq

structure IdxEntry where
  name : String
  defn : String
deriving DecidableEq

structure ConsEntry where
  name : String
  ctype : String
deriving DecidableEq

structure PolEntry where
  name : String
  cmd : String
deriving DecidableEq

/-- One value of the in-memory summary map (`map[key]`). -/
structure TableEntry where
  schema : String
  table : String
  columns : List ColEntry
  indexes : List IdxEntry
  constraints : List ConsEntry
  rls : List PolEntry
deriving DecidableEq

def colKey (r : ColumnRow) : String := r.table_schema ++ "." ++ r.table_name
def idxKey (r : IndexRow) : String := r.schemaname ++ "." ++ r.tablename
def consKey (r : ConstraintRow) : String := r.schema ++ "." ++ r.table
def polKey (r : PolicyRow) : String := r.schema ++ "." ++ r.table

/-- `map[key] ||= {schema, table, columns: [], ...}` followed by
`map[key].columns.push(...)`, on an insertion-ordered string-keyed map. -/
def upsertColRow : List (String × TableEntry) → ColumnRow → List (String × TableEntry)
  | [], r =>
    [(colKey r,
      { schema := r.table_schema, table := r.table_name,
        columns := [{ name := r.column_name, type := r.data_type,
                      nullable := r.is_nullable == "YES" }],
        indexes := [], constraints := [], rls := [] })]
  | (k, e) :: rest, r =>
    if k = colKey r then
      (k, { e with columns := e.columns ++
              [{ name := r.column_name, type := r.data_type,
                 nullable := r.is_nullable == "YES" }] }) :: rest
    else (k, e) :: upsertColRow rest r

/-- `if (map[key]) map[key].<coll>.push(row)`: the common shape of the three
attachment loops — update the (unique) entry carrying the row's key, drop
the row when its key is absent. -/
def attachRow {ρ : Type} (key : ρ → String) (upd : TableEntry → ρ → TableEntry) :
    List (String × TableEntry) → ρ → List (String × TableEntry)
  | [], _ => []
  | (k, e) :: rest, r =>
    if k = key r then (k, upd e r) :: rest
    else (k, e) :: attachRow key upd rest r

/-- `if (map[key]) map[key].indexes.push({name, def})`. -/
def attachIdx : List (String × TableEntry) → IndexRow → List (String × TableEntry) :=
  attachRow idxKey fun e r =>
    { e with indexes := e.indexes ++ [{ name := r.indexname, defn := r.indexdef }] }

/-- `if (map[key]) map[key].constraints.push({name, type})`. -/
def attachCons : List (String × TableEntry) → ConstraintRow → List (String × TableEntry) :=
  attachRow consKey fun e r =>
    { e with constraints := e.constraints ++ [{ name := r.conname, ctype := r.contype }] }

/-- `if (map[key]) map[key].rls.push({name, cmd})`. -/
def attachPol : List (String × TableEntry) → PolicyRow → List (String × TableEntry) :=
  attachRow polKey fun e r =>
    { e with rls := e.rls ++ [{ name := r.policy_name, cmd := r.cmd }] }

/-- The in-memory multi-way join of the four catalog result sets: seed the
map from the columns result, then attach index/constraint/policy rows to
already-present keys. -/
def buildMap (cols : List ColumnRow) (idx : List IndexRow)
    (cons : List ConstraintRow) (pols : List PolicyRow) :
    List (String × TableEntry) :=
  pols.foldl attachPol (cons.foldl attachCons (idx.foldl attachIdx (cols.foldl upsertColRow [])))

structure DigestEntry where
  schema : String
  table : String
  cols : List String
  idx_count : Nat
  cons_count : Nat
  rls : Bool
deriving DecidableEq

/-- The token-optimized digest rendering of one map entry. -/
def renderEntry (t : TableEntry) : DigestEntry :=
  { schema := t.schema, table := t.table,
    cols := t.columns.map fun c => c.name ++ ":" ++ c.type ++ (if c.nullable then "" else "!"),
    idx_count := t.indexes.length,
    cons_count := t.constraints.length,
    rls := decide (0 < t.rls.length) }

structure IntrospectResult where
  digest : List DigestEntry
  table_count : Nat
  note : String
deriving DecidableEq

def introspectNote : String := "Use sbsh_get_table_doc for detailed column info"

/-- Aggregation plus digest rendering over the four fetched result sets. -/
def buildDigestResult (cols : List ColumnRow) (idx : List IndexRow)
    (cons : List ConstraintRow) (pols : List PolicyRow) : IntrospectResult :=
  let m := buildMap cols idx cons pols
  { digest := m.map fun p => renderEntry p.2,
    table_count := m.length,
    note := introspectNote }

/-- The `schemas` argument as it arrives over JSON-RPC; only its
`Array.isArray` status and (for arrays) its string elements matter to the
handler. -/
inductive SchemasArg where
  | absent
  | null
  | str (s : String)
  | num (n : Int)
  | boolean (b : Bool)
  | arr (xs : List String)
deriving DecidableEq

/-- `Array.isArray(params?.schemas) ? params.schemas : ['public']`. -/
def resolveSchemas : SchemasArg → List String
  | .arr xs => xs
  | _ => ["public"]

/-- The full database catalog; the four queries are its schema-scoped
restrictions. -/
structure Catalog where
  cols : List ColumnRow
  idx : List IndexRow
  cons : List ConstraintRow
  pols : List PolicyRow
deriving DecidableEq

/-- `WHERE schema = ANY($1::text[])` applied to each of the four catalog
relations. -/
def scopeCatalog (schemas : List String) (c : Catalog) : Catalog :=
  { cols := c.cols.filter fun r => decide (r.table_schema ∈ schemas),
    idx := c.idx.filter fun r => decide (r.schemaname ∈ schemas),
    cons := c.cons.filter fun r => decide (r.schema ∈ schemas),
    pols := c.pols.filter fun r => decide (r.schema ∈ schemas) }

def introspectQueryNames : List String :=
  ["columns", "indexes", "constraints", "policies"]

/-- The `sbsh_introspect_schema` handler: feature gate, schemas-argument
defaulting, the four scoped catalog queries, aggregation and digest
rendering.  The second component names the queries issued. -/
def introspectSchema (features : List String) (schemasArg : SchemasArg)
    (cat : Catalog) : Except Err IntrospectResult × List String :=
  if "database" ∈ features then
    let schemas := resolveSchemas schemasArg
    let sc := scopeCatalog schemas cat
    (.ok (buildDigestResult sc.cols sc.idx sc.cons sc.pols), introspectQueryNames)
  else (.error (.featureDisabled "database"), [])

/-! ## `sbsh_get_table_doc` -/

/-- JS `String.prototype.split('.')` on a character list: splits at every
dot and keeps empty segments (so the result is always non-empty). -/
def splitDot : List Char → List (List Char)
  | [] => [[]]
  | c :: cs =>
    let r := splitDot cs
    if c = '.' then [] :: r else (c :: r.headD []) :: r.tail

/-- Table-name resolution from the source:
`tableInput.includes('.') ? tableInput.split('.') : ['public', tableInput]`,
destructured as `const [schema, table] = ...` (i.e. the first two split
segments). -/
def parseTableInput (t : String) : String × String :=
  let cs := t.toList
  if '.' ∈ cs then
    (String.mk ((splitDot cs).getD 0 []), String.mk ((splitDot cs).getD 1 []))
  else ("public", t)

/-- The three per-table document queries, each already scoped to the
resolved `(schema, table)` pair; row contents are opaque strings supplied
by the external engine. -/
structure DocDb where
  cols : String → String → List String
  cons : String → String → List String
  pols : String → String → List String

structure DocQuery where
  kind : String
  schema : String
  table : String
deriving DecidableEq

structure TableDocResult where
  schema : String
  table : String
  columns : List String
  constraints : List String
  rls_policies : List String
  rls_enabled : Bool
deriving DecidableEq

/-- The `sbsh_get_table_doc` handler: feature gate, emptiness validation
(`if (!tableInput)`), table-name resolution, then the three scoped queries,
with `rls_enabled: rls.rows.length > 0`. -/
def getTableDoc (features : List String) (tableArg : Option String)
    (db : DocDb) : Except Err TableDocResult × List DocQuery :=
  if "docs" ∈ features then
    let tableInput := tableArg.getD ""
    if tableInput = "" then (.error .tableRequired, [])
    else
      let st := parseTableInput tableInput
      let colRows := db.cols st.1 st.2
      let consRows := db.cons st.1 st.2
      let polRows := db.pols st.1 st.2
      (.ok { schema := st.1, table := st.2, columns := colRows,
             constraints := consRows, rls_policies := polRows,
             rls_enabled := decide (0 < polRows.length) },
       [⟨"columns", st.1, st.2⟩, ⟨"constraints", st.1, st.2⟩, ⟨"policies", st.1, st.2⟩])
  else (.error (.featureDisabled "docs"), [])

/-! ## `sbsh_postgrest_get` -/

structure PostgrestResult where
  data : List String
  count : Nat
  rls_respected : Bool
deriving DecidableEq

/-- The `sbsh_postgrest_get` handler: feature gate, JWT presence check,
table validation, then one HTTP GET (recorded in the trace as the request
path); a non-ok response surfaces as a `postgrestError`. -/
def postgrestGet (features : List String) (jwt : String)
    (tableArg : Option String) (queryString : String)
    (response : Except (Nat × String) (List String)) :
    Except Err PostgrestResult × List String :=
  if "postgrest" ∈ features then
    if jwt = "" then (.error .jwtNotConfigured, [])
    else
      let table := tableArg.getD ""
      if table = "" then (.error .tableRequired, [])
      else
        let url := table ++ "?" ++ queryString
        match response with
        | .error sb => (.error (.postgrestError sb.1 sb.2), [url])
        | .ok rows => (.ok { data := rows, count := rows.length, rls_respected := true }, [url])
  else (.error (.featureDisabled "postgrest"), [])

/-! ## Specification-side definitions

These follow the wording of the specification / claims, to be compared with
the source-derived definitions above. -/

/-- Case-insensitive equality of character lists (ASCII folding). -/
def lowerEq (w kw : List Char) : Prop :=
  w.map Char.toLower = kw.map Char.toLower

/-- An occurrence of the two-word deny token `SET ROLE`: `SET`, at least one
whitespace character, `ROLE`, all case-insensitively. -/
def IsSetRoleOcc (w : List Char) : Prop :=
  ∃ a ws b, w = a ++ ws ++ b ∧ lowerEq a "SET".toList ∧ ws ≠ [] ∧
    ws.all isWS = true ∧ lowerEq b "ROLE".toList

/-- `w` is (case-insensitively) one of the deny-list tokens. -/
def IsDenyOcc (w : List Char) : Prop :=
  (∃ kw ∈ denyKeywords, lowerEq w kw) ∨ IsSetRoleOcc w

/-- The claim-side characterization: the statement contains a deny-list
token as a case-insensitive whole-word match somewhere in the text (no word
character directly before or after the occurrence). -/
def ContainsDenyWord (s : List Char) : Prop :=
  ∃ u w v, s = u ++ w ++ v ∧ IsDenyOcc w ∧
    boundaryBefore u.getLast? = true ∧ noWordAhead v = true

/-- Digest rendering as the specification words it: columns as
`"<name>:<type>"` with `!` exactly when NOT NULL, counts as lengths, RLS
boolean as non-emptiness of the policy list. -/
def specDigestOfEntry (t : TableEntry) : DigestEntry :=
  { schema := t.schema, table := t.table,
    cols := t.columns.map fun c => c.name ++ ":" ++ c.type ++ (if c.nullable then "" else "!"),
    idx_count := t.indexes.length,
    cons_count := t.constraints.length,
    rls := decide (0 < t.rls.length) }

/-- Table-name resolution as claim C5 words it: schema is the text before
the first dot and table is everything after the first dot. -/
def specResolveFirstDot (t : String) : String × String :=
  let cs := t.toList
  if '.' ∈ cs then
    (String.mk (cs.takeWhile fun c => decide (c ≠ '.')),
     String.mk ((cs.dropWhile fun c => decide (c ≠ '.')).tail))
  else ("public", t)

/-- Table-name resolution as the code actually behaves (the amended claim):
schema is the text before the first dot and table is the text after the
first dot up to (not including) the next dot. -/
def amendedResolve (t : String) : String × String :=
  let cs := t.toList
  if '.' ∈ cs then
    let afterDot := (cs.dropWhile fun c => decide (c ≠ '.')).tail
    (String.mk (cs.takeWhile fun c => decide (c ≠ '.')),
     String.mk (afterDot.takeWhile fun c => decide (c ≠ '.')))
  else ("public", t)

/-! ## Theorems -/

/-- **C1.** For every SQL statement string, when safe mode (READ_ONLY) is on,
the execute-sql gate permits execution (does not fail with the safety
denial) iff `isExplain` holds or `isMutatingSql` does not; when safe mode is
off the gate permits every statement. -/
theorem execute_sql_gate_law (α : Type) (features : List String) (sql : String)
    (limitArg : Option Int) (rows : List α)
    (hdb : "database" ∈ features) (hne : sql.toList.all isWS = false) :
    (((executeSql features true (some sql) limitArg rows).1 ≠ ExecOutcome.err Err.readOnlyDenied) ↔
      (isExplain sql = true ∨ isMutatingSql sql = false))
    ∧ ((executeSql features false (some sql) limitArg rows).1 ≠ ExecOutcome.err Err.readOnlyDenied) := by
  have hne' : ¬ (∀ x ∈ sql.data, isWS x = true) := by
    intro hall
    have hall' : sql.toList.all isWS = true := List.all_eq_true.mpr hall
    rw [hall'] at hne
    simp at hne
  cases hE : isExplain sql <;> cases hM : isMutatingSql sql <;>
    simp [executeSql, hdb, hne', hE, hM]

/-- Witness for C1: under safe mode, `SELECT 1` is permitted,
`DROP TABLE t` is denied, and `EXPLAIN DELETE FROM t` is permitted. -/
theorem execute_sql_gate_law_witness :
    ((executeSql ["database"] true (some "SELECT 1") none ([] : List Unit)).1
      ≠ ExecOutcome.err Err.readOnlyDenied)
    ∧ ((executeSql ["database"] true (some "DROP TABLE t") none ([] : List Unit)).1
      = ExecOutcome.err Err.readOnlyDenied)
    ∧ ((executeSql ["database"] true (some "EXPLAIN DELETE FROM t") none ([] : List Unit)).1
      ≠ ExecOutcome.err Err.readOnlyDenied) := by
  refine ⟨?_, ?_, ?_⟩
  · exact (execute_sql_gate_law Unit ["database"] "SELECT 1" none []
      (by decide) (by decide)).1.mpr (Or.inr (by decide))
  · have h := (execute_sql_gate_law Unit ["database"] "DROP TABLE t" none []
      (by decide) (by decide)).1
    simp only [show isExplain "DROP TABLE t" = false from by decide,
      show isMutatingSql "DROP TABLE t" = true from by decide] at h
    simp only [Bool.false_eq_true, Bool.true_eq_false, or_self, iff_false, not_not] at h
    exact h
  · exact (execute_sql_gate_law Unit ["database"] "EXPLAIN DELETE FROM t" none []
      (by decide) (by decide)).1.mpr (Or.inl (by decide))

/-- On the successful non-EXPLAIN path, `executeSql` returns the sliced
query result and dispatches exactly the statement to the engine. -/
theorem executeSql_query_eq {α : Type} (features : List String) (readOnly : Bool)
    (sql : String) (limitArg : Option Int) (rows : List α)
    (hdb : "database" ∈ features) (hne : sql.toList.all isWS = false)
    (hexp : isExplain sql = false)
    (hM : (readOnly && !isExplain sql && isMutatingSql sql) = false) :
    executeSql features readOnly (some sql) limitArg rows =
      (ExecOutcome.queryResult (jsSliceTo rows (min (limitArg.getD 100) 1000)) rows.length
        (decide ((rows.length : Int) > min (limitArg.getD 100) 1000)), [sql]) := by
  simp only [executeSql, Option.getD_some]
  rw [if_pos hdb, hne, hM, hexp]
  simp

/-- **C3.** For every non-EXPLAIN execute-sql call over a result set of `N`
rows with requested (non-negative) limit `L` — default 100 when omitted —
the effective limit is `min L 1000`, the returned row count is
`min N (min L 1000)`, and `truncated = (N > min L 1000)`. -/
theorem execute_sql_row_limit_law (α : Type) (features : List String) (readOnly : Bool)
    (sql : String) (rows : List α) (L : Nat)
    (hdb : "database" ∈ features) (hne : sql.toList.all isWS = false)
    (hexp : isExplain sql = false) (hro : readOnly = true → isMutatingSql sql = false) :
    ((executeSql features readOnly (some sql) (some (L : Int)) rows).1.rowsOut.map List.length
        = some (min rows.length (min L 1000))
      ∧ (executeSql features readOnly (some sql) (some (L : Int)) rows).1.truncatedOut
        = some (decide (rows.length > min L 1000)))
    ∧ ((executeSql features readOnly (some sql) none rows).1.rowsOut.map List.length
        = some (min rows.length 100)
      ∧ (executeSql features readOnly (some sql) none rows).1.truncatedOut
        = some (decide (rows.length > 100))) := by
  have hM : (readOnly && !isExplain sql && isMutatingSql sql) = false := by
    cases hR : readOnly
    · simp
    · simp [hexp, hro hR]
  rw [executeSql_query_eq features readOnly sql (some (L : Int)) rows hdb hne hexp hM,
    executeSql_query_eq features readOnly sql none rows hdb hne hexp hM]
  simp only [Option.getD_some, Option.getD_none, ExecOutcome.rowsOut, ExecOutcome.truncatedOut,
    jsSliceTo, Option.map_some, Option.some.injEq]
  refine ⟨⟨?_, ?_⟩, ?_, ?_⟩
  · rw [if_neg (by omega)]
    simp only [Option.map_some', List.length_take, Option.some.injEq]
    omega
  · rw [decide_eq_decide]
    omega
  · rw [if_neg (by omega)]
    simp only [Option.map_some', List.length_take, Option.some.injEq]
    omega
  · rw [decide_eq_decide]
    omega

/-- Witness for C3 (end-to-end scenario C): 1500 rows, limit omitted →
100 rows returned, `truncated = true`. -/
theorem execute_sql_row_limit_law_witness :
    (executeSql ["database"] true (some "SELECT * FROM t") none
        (List.replicate 1500 ())).1.rowsOut.map List.length = some 100
    ∧ (executeSql ["database"] true (some "SELECT * FROM t") none
        (List.replicate 1500 ())).1.truncatedOut = some true := by
  have h := (execute_sql_row_limit_law Unit ["database"] true "SELECT * FROM t"
    (List.replicate 1500 ()) 0 (by decide) (by decide) (by decide)
    (fun _ => by decide)).2
  refine ⟨?_, ?_⟩
  · rw [h.1, List.length_replicate]
    decide
  · rw [h.2, List.length_replicate]
    decide

/-- **C9.** For every non-EXPLAIN execute-sql call with a negative requested
limit `L` over `N` rows, the limit is not clamped from below: the returned
rows are `rows.slice(0, L)`, i.e. the first `max 0 (N + L)` rows, and
`truncated` is reported `true` (since `N ≥ 0 > L`). -/
theorem execute_sql_negative_limit (α : Type) (features : List String) (readOnly : Bool)
    (sql : String) (rows : List α) (L : Int)
    (hdb : "database" ∈ features) (hne : sql.toList.all isWS = false)
    (hexp : isExplain sql = false) (hro : readOnly = true → isMutatingSql sql = false)
    (hL : L < 0) :
    (executeSql features readOnly (some sql) (some L) rows).1.rowsOut
      = some (rows.take ((rows.length + L).toNat))
    ∧ (executeSql features readOnly (some sql) (some L) rows).1.truncatedOut = some true := by
  have hM : (readOnly && !isExplain sql && isMutatingSql sql) = false := by
    cases hR : readOnly
    · simp
    · simp [hexp, hro hR]
  rw [executeSql_query_eq features readOnly sql (some L) rows hdb hne hexp hM]
  have hmin : min L 1000 = L := min_eq_left (by omega)
  simp only [Option.getD_some, hmin, ExecOutcome.rowsOut, ExecOutcome.truncatedOut, jsSliceTo]
  refine ⟨?_, ?_⟩
  · rw [if_pos (by omega)]
  · rw [Option.some.injEq, decide_eq_true_eq]
    omega

/-- Witness for C9: five rows, limit `-2` → the first three rows are
returned and `truncated = true`. -/
theorem execute_sql_negative_limit_witness :
    (executeSql ["database"] false (some "SELECT * FROM t") (some (-2))
        ([10, 20, 30, 40, 50] : List Nat)).1.rowsOut = some [10, 20, 30]
    ∧ (executeSql ["database"] false (some "SELECT * FROM t") (some (-2))
        ([10, 20, 30, 40, 50] : List Nat)).1.truncatedOut = some true := by
  have h := execute_sql_negative_limit Nat ["database"] false "SELECT * FROM t"
    [10, 20, 30, 40, 50] (-2) (by decide) (by decide) (by decide)
    (fun hc => by simp at hc) (by decide)
  refine ⟨?_, h.2⟩
  rw [h.1]
  decide

/-- **C7.** Every tool invocation whose governing feature flag is absent
from the feature set fails with the named "feature disabled" error — whose
message is distinct from the validation, safety-denial and data-access
error messages — and issues no query. -/
theorem feature_disabled_law (α : Type) (features : List String) (sArg : SchemasArg)
    (cat : Catalog) (ro : Bool) (sqlArg : Option String) (limArg : Option Int)
    (rows : List α) (jwt : String) (tbl : Option String) (qs : String)
    (resp : Except (Nat × String) (List String)) (db : DocDb) (tbl2 : Option String) :
    ("database" ∉ features →
       introspectSchema features sArg cat = (.error (.featureDisabled "database"), [])
       ∧ executeSql features ro sqlArg limArg rows = (.err (.featureDisabled "database"), []))
    ∧ ("postgrest" ∉ features →
       postgrestGet features jwt tbl qs resp = (.error (.featureDisabled "postgrest"), []))
    ∧ ("docs" ∉ features →
       getTableDoc features tbl2 db = (.error (.featureDisabled "docs"), []))
    ∧ (errMessage (.featureDisabled "database") ≠ errMessage .sqlRequired
       ∧ errMessage (.featureDisabled "database") ≠ errMessage .tableRequired
       ∧ errMessage (.featureDisabled "database") ≠ errMessage .readOnlyDenied
       ∧ errMessage (.featureDisabled "postgrest") ≠ errMessage .tableRequired
       ∧ errMessage (.featureDisabled "postgrest") ≠ errMessage .jwtNotConfigured
       ∧ errMessage (.featureDisabled "docs") ≠ errMessage .tableRequired
       ∧ ∀ (status : Nat) (body : String),
           errMessage (.featureDisabled "postgrest") ≠ errMessage (.postgrestError status body)) := by
  refine ⟨fun h => ⟨?_, ?_⟩, fun h => ?_, fun h => ?_, ?_⟩
  · simp [introspectSchema, h]
  · simp [executeSql, h]
  · simp [postgrestGet, h]
  · simp [getTableDoc, h]
  · refine ⟨by decide, by decide, by decide, by decide, by decide, by decide, ?_⟩
    intro status body h
    have h3 := congrArg (fun s => s.data.head?) h
    simp [errMessage, String.data_append, List.head?_append] at h3

/-- Witness for C7: with an empty feature set, each of the four tools fails
with its "feature disabled" error and issues no query. -/
theorem feature_disabled_law_witness :
    introspectSchema [] SchemasArg.absent ⟨[], [], [], []⟩
      = (.error (.featureDisabled "database"), [])
    ∧ executeSql [] true (some "SELECT 1") none ([] : List Unit)
      = (.err (.featureDisabled "database"), [])
    ∧ postgrestGet [] "jwt" (some "users") "" (.ok [])
      = (.error (.featureDisabled "postgrest"), [])
    ∧ getTableDoc [] (some "users") ⟨fun _ _ => [], fun _ _ => [], fun _ _ => []⟩
      = (.error (.featureDisabled "docs"), []) := by
  have h := feature_disabled_law Unit [] SchemasArg.absent ⟨[], [], [], []⟩ true
    (some "SELECT 1") none [] "jwt" (some "users") "" (.ok [])
    ⟨fun _ _ => [], fun _ _ => [], fun _ _ => []⟩ (some "users")
  exact ⟨(h.1 (by decide)).1, (h.1 (by decide)).2, h.2.1 (by decide), h.2.2.1 (by decide)⟩

/-- **C8.** An execute-sql call whose `sql` argument is missing, empty or
all-whitespace fails with the validation error and dispatches nothing to
the engine; a table-document call whose `table` argument is missing or
empty likewise fails with the validation error and issues no query. -/
theorem empty_argument_validation (α : Type) (features : List String) (ro : Bool)
    (sqlArg : Option String) (limArg : Option Int) (rows : List α)
    (tblArg : Option String) (db : DocDb)
    (hdb : "database" ∈ features) (hdocs : "docs" ∈ features)
    (hsql : (sqlArg.getD "").toList.all isWS = true)
    (htbl : tblArg.getD "" = "") :
    executeSql features ro sqlArg limArg rows = (.err .sqlRequired, [])
    ∧ getTableDoc features tblArg db = (.error .tableRequired, []) := by
  constructor
  · simp only [executeSql, if_pos hdb]
    rw [hsql]
    simp
  · simp only [getTableDoc, if_pos hdocs]
    rw [htbl]
    simp

/-- Witness for C8: a whitespace-only `sql` and a missing `table` both fail
with their validation errors without touching the engine. -/
theorem empty_argument_validation_witness :
    executeSql ["database", "docs"] true (some "   ") none ([] : List Unit)
      = (.err .sqlRequired, [])
    ∧ getTableDoc ["database", "docs"] none ⟨fun _ _ => [], fun _ _ => [], fun _ _ => []⟩
      = (.error .tableRequired, []) := by
  exact empty_argument_validation Unit ["database", "docs"] true (some "   ") none []
    none ⟨fun _ _ => [], fun _ _ => [], fun _ _ => []⟩
    (by decide) (by decide) (by decide) (by decide)

/-- **C10.** A `schemas` argument that is not an array (absent, null, a
string, a number, a boolean) is silently replaced by the default
`["public"]`, while an empty array is accepted as-is: it scopes all four
catalog queries to no schema and produces a digest with zero entries and
`table_count = 0` rather than an error or the default. -/
theorem schemas_argument_handling (features : List String) (cat : Catalog)
    (s : String) (n : Int) (b : Bool)
    (hdb : "database" ∈ features) :
    (introspectSchema features .absent cat = introspectSchema features (.arr ["public"]) cat
      ∧ introspectSchema features .null cat = introspectSchema features (.arr ["public"]) cat
      ∧ introspectSchema features (.str s) cat = introspectSchema features (.arr ["public"]) cat
      ∧ introspectSchema features (.num n) cat = introspectSchema features (.arr ["public"]) cat
      ∧ introspectSchema features (.boolean b) cat = introspectSchema features (.arr ["public"]) cat)
    ∧ introspectSchema features (.arr []) cat
        = (.ok ⟨[], 0, introspectNote⟩, introspectQueryNames) := by
  refine ⟨⟨rfl, rfl, rfl, rfl, rfl⟩, ?_⟩
  have hc : scopeCatalog (resolveSchemas (.arr [])) cat = ⟨[], [], [], []⟩ := by
    simp [scopeCatalog, resolveSchemas]
  simp [introspectSchema, hdb, hc, buildDigestResult, buildMap]

/-- Witness for C10: a non-empty catalog, feature enabled, empty schema
array → zero-entry digest. -/
theorem schemas_argument_handling_witness :
    introspectSchema ["database"] (.arr []) ⟨[⟨"public", "t", "c", "int", "NO"⟩], [], [], []⟩
      = (.ok ⟨[], 0, introspectNote⟩, introspectQueryNames) := by
  exact (schemas_argument_handling ["database"]
    ⟨[⟨"public", "t", "c", "int", "NO"⟩], [], [], []⟩ "" 0 false (by decide)).2

/-- **C6.** Each digest entry renders every column as `"<name>:<type>"`
with a trailing `!` exactly when the column is NOT NULL, reports
`idx_count`/`cons_count` as the lengths of the entry's index and constraint
collections, and reports `rls` as "the entry has at least one policy";
concretely (end-to-end scenario A) a `public.users` table with `id : uuid`
NOT NULL, `email : text` nullable, one constraint and one policy digests to
`{schema := public, table := users, cols := [id:uuid!, email:text],
idx_count := 0, cons_count := 1, rls := true}`. -/
theorem digest_rendering_law (cols : List ColumnRow) (idx : List IndexRow)
    (cons : List ConstraintRow) (pols : List PolicyRow) :
    ((buildDigestResult cols idx cons pols).digest
       = (buildMap cols idx cons pols).map fun p => specDigestOfEntry p.2)
    ∧ buildDigestResult
        [⟨"public", "users", "id", "uuid", "NO"⟩, ⟨"public", "users", "email", "text", "YES"⟩]
        []
        [⟨"public", "users", "users_pkey", "p"⟩]
        [⟨"public", "users", "users_policy", "ALL"⟩]
      = ⟨[⟨"public", "users", ["id:uuid!", "email:text"], 0, 1, true⟩], 1, introspectNote⟩ := by
  exact ⟨rfl, by decide⟩

lemma splitDot_ne_nil (cs : List Char) : splitDot cs ≠ [] := by
  cases cs with
  | nil => simp [splitDot]
  | cons c cs =>
    simp only [splitDot]
    split <;> simp

lemma splitDot_headD (cs : List Char) :
    (splitDot cs).headD [] = cs.takeWhile fun c => decide (c ≠ '.') := by
  induction cs with
  | nil => rfl
  | cons c cs ih =>
    by_cases hc : c = '.'
    · simp [splitDot, hc]
    · simpa [splitDot, hc] using ih

lemma getD_zero_headD (l : List (List Char)) : l.getD 0 [] = l.headD [] := by
  cases l <;> rfl

lemma splitDot_getD_one (cs : List Char) (hmem : '.' ∈ cs) :
    (splitDot cs).getD 1 [] =
      ((cs.dropWhile fun c => decide (c ≠ '.')).tail).takeWhile fun c => decide (c ≠ '.') := by
  induction cs with
  | nil => cases hmem
  | cons c cs ih =>
    obtain ⟨h0, t, hr⟩ : ∃ h0 t, splitDot cs = h0 :: t := by
      cases hsp : splitDot cs with
      | nil => exact absurd hsp (splitDot_ne_nil cs)
      | cons a b => exact ⟨a, b, rfl⟩
    by_cases hc : c = '.'
    · subst hc
      have hhead := splitDot_headD cs
      rw [hr] at hhead
      simp only [List.headD_cons] at hhead
      simp [splitDot, hr, hhead]
    · have hmem' : '.' ∈ cs := by
        rcases List.mem_cons.mp hmem with h | h
        · exact absurd h.symm hc
        · exact h
      have := ih hmem'
      rw [hr] at this
      simp only [List.getD_cons_succ, List.getD_cons_zero] at this
      simpa [splitDot, hc, hr] using this

/-- **C5, counterexample.** The claim resolves `"a.b.c"` to schema `"a"`
and table `"b.c"` (everything after the first dot); the code resolves it to
`("a", "b")` (the second split segment), so the two disagree. -/
theorem table_doc_resolution_counterexample :
    parseTableInput "a.b.c" ≠ specResolveFirstDot "a.b.c"
    ∧ parseTableInput "a.b.c" = ("a", "b")
    ∧ specResolveFirstDot "a.b.c" = ("a", "b.c") := by
  refine ⟨by decide, by decide, by decide⟩

/-- **C5, amended.** For every table-document input `T`, the resolved pair is
obtained by splitting `T` on dots: schema is the text before the first dot
and table is the text after the first dot up to (not including) the next
dot; without a dot the pair defaults to `("public", T)`.  In particular
`"users"` resolves to `public.users`, and no identifier validation happens:
any non-empty input reaches the three per-table queries with exactly the
resolved pair. -/
theorem table_doc_resolution_amended :
    (∀ t : String, parseTableInput t = amendedResolve t)
    ∧ parseTableInput "users" = ("public", "users")
    ∧ ∀ (features : List String) (t : String) (db : DocDb),
        "docs" ∈ features → t ≠ "" →
        (getTableDoc features (some t) db).2 =
          [⟨"columns", (parseTableInput t).1, (parseTableInput t).2⟩,
           ⟨"constraints", (parseTableInput t).1, (parseTableInput t).2⟩,
           ⟨"policies", (parseTableInput t).1, (parseTableInput t).2⟩] := by
  refine ⟨?_, by decide, ?_⟩
  · intro t
    by_cases hm : '.' ∈ t.toList
    · simp only [parseTableInput, amendedResolve, if_pos hm]
      rw [getD_zero_headD, splitDot_headD, splitDot_getD_one t.toList hm]
    · simp only [parseTableInput, amendedResolve, if_neg hm]
  · intro features t db hdocs hne
    simp only [getTableDoc, if_pos hdocs, Option.getD_some]
    rw [if_neg hne]

/-- Witness for C5 (amended): `"users"` is resolved to `public.users` and the
three table-document queries are issued for exactly that pair. -/
theorem table_doc_resolution_amended_witness :
    (getTableDoc ["docs"] (some "users")
        ⟨fun _ _ => [], fun _ _ => [], fun _ _ => []⟩).2 =
      [⟨"columns", "public", "users"⟩, ⟨"constraints", "public", "users"⟩,
       ⟨"policies", "public", "users"⟩] := by
  have h := table_doc_resolution_amended.2.2 ["docs"] "users"
    ⟨fun _ _ => [], fun _ _ => [], fun _ _ => []⟩ (by decide) (by decide)
  rw [h]
  decide

lemma attachRow_keys {ρ : Type} (key : ρ → String) (upd : TableEntry → ρ → TableEntry)
    (r : ρ) : ∀ m : List (String × TableEntry),
    (attachRow key upd m r).map Prod.fst = m.map Prod.fst := by
  intro m
  induction m with
  | nil => rfl
  | cons p rest ih =>
    obtain ⟨k, e⟩ := p
    by_cases hk : k = key r <;> simp [attachRow, hk, ih]

lemma attachRow_absent {ρ : Type} (key : ρ → String) (upd : TableEntry → ρ → TableEntry)
    (r : ρ) : ∀ m : List (String × TableEntry),
    key r ∉ m.map Prod.fst → attachRow key upd m r = m := by
  intro m
  induction m with
  | nil => intro _; rfl
  | cons p rest ih =>
    obtain ⟨k, e⟩ := p
    intro habs
    simp only [List.map_cons, List.mem_cons] at habs
    push_neg at habs
    simp only [attachRow]
    rw [if_neg (fun h : k = key r => habs.1 h.symm), ih habs.2]

lemma upsertColRow_keys (r : ColumnRow) : ∀ m : List (String × TableEntry),
    (upsertColRow m r).map Prod.fst =
      if colKey r ∈ m.map Prod.fst then m.map Prod.fst
      else m.map Prod.fst ++ [colKey r] := by
  intro m
  induction m with
  | nil => simp [upsertColRow]
  | cons p rest ih =>
    obtain ⟨k, e⟩ := p
    by_cases hk : k = colKey r
    · simp [upsertColRow, hk]
    · by_cases hm : colKey r ∈ rest.map Prod.fst <;>
        simp [upsertColRow, hk, ih, hm, Ne.symm hk]

lemma foldl_upsert_keys_mem (cols : List ColumnRow) :
    ∀ (m : List (String × TableEntry)) (k : String),
    k ∈ (cols.foldl upsertColRow m).map Prod.fst ↔
      k ∈ m.map Prod.fst ∨ k ∈ cols.map colKey := by
  induction cols with
  | nil => simp
  | cons r cols ih =>
    intro m k
    rw [List.foldl_cons, ih, upsertColRow_keys]
    by_cases hm : colKey r ∈ m.map Prod.fst
    · rw [if_pos hm]
      constructor
      · rintro (h | h)
        · exact Or.inl h
        · exact Or.inr (List.mem_cons_of_mem _ h)
      · rintro (h | h)
        · exact Or.inl h
        · rcases List.mem_cons.mp h with h | h
          · subst h; exact Or.inl hm
          · exact Or.inr h
    · rw [if_neg hm]
      simp only [List.mem_append, List.mem_singleton, List.map_cons, List.mem_cons]
      tauto

lemma foldl_upsert_keys_nodup (cols : List ColumnRow) :
    ∀ m : List (String × TableEntry),
    (m.map Prod.fst).Nodup → ((cols.foldl upsertColRow m).map Prod.fst).Nodup := by
  induction cols with
  | nil => exact fun _ h => h
  | cons r cols ih =>
    intro m hm
    rw [List.foldl_cons]
    apply ih
    rw [upsertColRow_keys]
    by_cases hmem : colKey r ∈ m.map Prod.fst
    · rwa [if_pos hmem]
    · rw [if_neg hmem]
      simp [List.nodup_append, hm, hmem]

lemma foldl_attach_keys {ρ : Type} (key : ρ → String) (upd : TableEntry → ρ → TableEntry)
    (rs : List ρ) : ∀ m : List (String × TableEntry),
    (rs.foldl (attachRow key upd) m).map Prod.fst = m.map Prod.fst := by
  induction rs with
  | nil => exact fun _ => rfl
  | cons r rs ih =>
    intro m
    rw [List.foldl_cons, ih, attachRow_keys]

lemma foldl_attach_filter {ρ : Type} (key : ρ → String) (upd : TableEntry → ρ → TableEntry)
    (rs : List ρ) (ks : List String) :
    ∀ m : List (String × TableEntry), (∀ k, k ∈ m.map Prod.fst ↔ k ∈ ks) →
    rs.foldl (attachRow key upd) m =
      (rs.filter fun r => decide (key r ∈ ks)).foldl (attachRow key upd) m := by
  induction rs with
  | nil => exact fun _ _ => rfl
  | cons r rs ih =>
    intro m hm
    by_cases hk : key r ∈ ks
    · rw [List.filter_cons_of_pos (by simpa using hk), List.foldl_cons, List.foldl_cons]
      apply ih
      intro k
      rw [attachRow_keys]
      exact hm k
    · have habs : key r ∉ m.map Prod.fst := fun h => hk ((hm _).mp h)
      rw [List.filter_cons_of_neg (by simpa using hk), List.foldl_cons,
        attachRow_absent _ _ _ _ habs]
      exact ih m hm

/-- **C4.** A digest run produces exactly one entry per distinct
`schema.table` key appearing in the columns result (the map keys are
duplicate-free and a key is present iff some column row carries it), and
every index/constraint/policy row whose key has no column row in the same
run is silently dropped: filtering those orphan rows out beforehand leaves
the output unchanged. -/
theorem digest_orphan_law (cols : List ColumnRow) (idx : List IndexRow)
    (cons : List ConstraintRow) (pols : List PolicyRow) :
    (((buildMap cols idx cons pols).map Prod.fst).Nodup
      ∧ ∀ k, k ∈ (buildMap cols idx cons pols).map Prod.fst ↔ k ∈ cols.map colKey)
    ∧ buildDigestResult cols idx cons pols
        = buildDigestResult cols
            (idx.filter fun r => decide (idxKey r ∈ cols.map colKey))
            (cons.filter fun r => decide (consKey r ∈ cols.map colKey))
            (pols.filter fun r => decide (polKey r ∈ cols.map colKey)) := by
  have hseed : ∀ k, k ∈ ((cols.foldl upsertColRow []).map Prod.fst) ↔ k ∈ cols.map colKey := by
    intro k
    rw [foldl_upsert_keys_mem]
    simp
  refine ⟨⟨?_, ?_⟩, ?_⟩
  · simp only [buildMap, attachIdx, attachCons, attachPol, foldl_attach_keys]
    exact foldl_upsert_keys_nodup cols [] (by simp)
  · intro k
    simp only [buildMap, attachIdx, attachCons, attachPol, foldl_attach_keys]
    exact hseed k
  · have hmap : buildMap cols idx cons pols
        = buildMap cols
            (idx.filter fun r => decide (idxKey r ∈ cols.map colKey))
            (cons.filter fun r => decide (consKey r ∈ cols.map colKey))
            (pols.filter fun r => decide (polKey r ∈ cols.map colKey)) := by
      simp only [buildMap, attachIdx, attachCons, attachPol]
      rw [← foldl_attach_filter _ _ idx (cols.map colKey) _ hseed]
      rw [← foldl_attach_filter _ _ cons (cols.map colKey) _ (by
        intro k
        rw [foldl_attach_keys]
        exact hseed k)]
      rw [← foldl_attach_filter _ _ pols (cols.map colKey) _ (by
        intro k
        rw [foldl_attach_keys, foldl_attach_keys]
        exact hseed k)]
    simp only [buildDigestResult, hmap]

lemma matchCI_append (p : List Char) : ∀ (w r : List Char), lowerEq w p →
    matchCI p (w ++ r) = some r := by
  induction p with
  | nil =>
    intro w r hw
    have hwnil : w = [] := by simpa [lowerEq] using hw
    subst hwnil
    rfl
  | cons p0 ps ih =>
    intro w r hw
    cases w with
    | nil => simp [lowerEq] at hw
    | cons c w' =>
      simp only [lowerEq, List.map_cons, List.cons.injEq] at hw
      simpa [matchCI, hw.1] using ih w' r hw.2

lemma matchCI_some_decomp (p : List Char) : ∀ (s r : List Char),
    matchCI p s = some r → ∃ w, s = w ++ r ∧ lowerEq w p := by
  induction p with
  | nil =>
    intro s r h
    simp only [matchCI, Option.some.injEq] at h
    exact ⟨[], by rw [h]; rfl, by simp [lowerEq]⟩
  | cons p0 ps ih =>
    intro s r h
    cases s with
    | nil => cases h
    | cons c cs =>
      simp only [matchCI] at h
      by_cases hc : c.toLower = p0.toLower
      · rw [if_pos hc] at h
        obtain ⟨w', rfl, hw'⟩ := ih cs r h
        exact ⟨c :: w', rfl, by simpa [lowerEq, hc] using hw'⟩
      · rw [if_neg hc] at h
        cases h

lemma isWS_false_of_toLower_r (c : Char) (h : c.toLower = 'r') : isWS c = false := by
  cases hws : isWS c
  · rfl
  · exfalso
    have hcases : c = ' ' ∨ c = '\t' ∨ c = '\n' ∨ c = Char.ofNat 11 ∨ c = Char.ofNat 12 ∨ c = '\r' := by
      simpa [isWS, or_assoc] using hws
    rcases hcases with h1 | h1 | h1 | h1 | h1 | h1 <;> rw [h1] at h <;> exact absurd h (by decide)

lemma dropWhile_append_all (p : Char → Bool) : ∀ (l1 l2 : List Char),
    (∀ c ∈ l1, p c = true) → (l1 ++ l2).dropWhile p = l2.dropWhile p := by
  intro l1
  induction l1 with
  | nil => intro l2 _; rfl
  | cons c cs ih =>
    intro l2 h
    rw [List.cons_append, List.dropWhile_cons]
    rw [h c (List.mem_cons_self c cs), if_pos rfl]
    exact ih l2 fun d hd => h d (List.mem_cons_of_mem _ hd)

lemma matchSetRole_append (w r : List Char) (h : IsSetRoleOcc w) :
    matchSetRole (w ++ r) = some r := by
  obtain ⟨a, ws, b, rfl, ha, hwsne, hwsall, hb⟩ := h
  have h1 : matchCI "SET".toList ((a ++ ws ++ b) ++ r) = some (ws ++ (b ++ r)) := by
    have := matchCI_append "SET".toList a (ws ++ (b ++ r)) ha
    rw [← this]
    simp [List.append_assoc]
  obtain ⟨d, ws', rfl⟩ : ∃ d ws', ws = d :: ws' := by
    cases ws with
    | nil => exact absurd rfl hwsne
    | cons d ws' => exact ⟨d, ws', rfl⟩
  simp only [List.all_cons, Bool.and_eq_true] at hwsall
  obtain ⟨b0, b', rfl⟩ : ∃ b0 b', b = b0 :: b' := by
    cases b with
    | nil => simp [lowerEq] at hb
    | cons b0 b' => exact ⟨b0, b', rfl⟩
  have hb0 : b0.toLower = 'r' := by
    simpa [lowerEq] using congrArg List.head? hb
  unfold matchSetRole
  rw [h1]
  simp only [List.cons_append]
  rw [if_pos hwsall.1]
  have hdrop : (ws' ++ (b0 :: (b' ++ r))).dropWhile isWS = b0 :: (b' ++ r) := by
    rw [dropWhile_append_all isWS ws' _ (fun e he => List.all_eq_true.mp hwsall.2 e he)]
    rw [List.dropWhile_cons, isWS_false_of_toLower_r b0 hb0]
    simp
  rw [hdrop]
  have := matchCI_append "ROLE".toList (b0 :: b') r hb
  simpa using this

lemma matchSetRole_some_decomp (s r : List Char) (h : matchSetRole s = some r) :
    ∃ w, s = w ++ r ∧ IsSetRoleOcc w := by
  unfold matchSetRole at h
  cases h1 : matchCI "SET".toList s with
  | none => rw [h1] at h; exact Option.noConfusion h
  | some rest =>
    rw [h1] at h
    obtain ⟨a, rfl, ha⟩ := matchCI_some_decomp _ _ _ h1
    cases rest with
    | nil => exact Option.noConfusion h
    | cons d cs =>
      have h' : (if isWS d = true then matchCI "ROLE".toList (cs.dropWhile isWS) else none)
          = some r := h
      cases hd : isWS d with
      | false => rw [hd] at h'; simp at h'
      | true =>
        rw [hd, if_pos rfl] at h'
        obtain ⟨b, hcs2, hb⟩ := matchCI_some_decomp _ _ _ h'
        refine ⟨a ++ ((d :: cs.takeWhile isWS) ++ b), ?_, ?_⟩
        · have hcs : cs = cs.takeWhile isWS ++ (b ++ r) := by
            rw [← hcs2, List.takeWhile_append_dropWhile]
          rw [List.append_assoc]
          simp only [List.cons_append, List.append_assoc]
          rw [← hcs]
        · exact ⟨a, d :: cs.takeWhile isWS, b, by simp [List.append_assoc], ha,
            by simp, by
              simp only [List.all_cons, hd, Bool.true_and, List.all_eq_true]
              exact fun c hc => List.mem_takeWhile_imp hc, hb⟩

lemma denyOcc_ne_nil {w : List Char} (h : IsDenyOcc w) : w ≠ [] := by
  rintro rfl
  rcases h with ⟨kw, hkw, hw⟩ | ⟨a, ws, b, hab, _, hne, _, _⟩
  · have hknil : kw = [] := by
      have := hw.symm
      simpa [lowerEq] using this
    subst hknil
    exact absurd hkw (by decide)
  · have : ws = [] := by
      have := hab.symm
      simp only [List.append_eq_nil] at this
      exact this.1.2
    exact hne this

lemma kwMatchAt_iff (s : List Char) :
    kwMatchAt s = true ↔ ∃ w v, s = w ++ v ∧ IsDenyOcc w ∧ noWordAhead v = true := by
  unfold kwMatchAt
  rw [Bool.or_eq_true, List.any_eq_true]
  constructor
  · rintro (⟨kw, hkw, hmatch⟩ | hsr)
    · cases hm : matchCI kw s with
      | none => rw [hm] at hmatch; exact Bool.noConfusion hmatch
      | some rest =>
        rw [hm] at hmatch
        obtain ⟨w, rfl, hw⟩ := matchCI_some_decomp _ _ _ hm
        exact ⟨w, rest, rfl, Or.inl ⟨kw, hkw, hw⟩, hmatch⟩
    · cases hm : matchSetRole s with
      | none => rw [hm] at hsr; exact Bool.noConfusion hsr
      | some rest =>
        rw [hm] at hsr
        obtain ⟨w, rfl, hw⟩ := matchSetRole_some_decomp _ _ hm
        exact ⟨w, rest, rfl, Or.inr hw, hsr⟩
  · rintro ⟨w, v, rfl, hocc, hv⟩
    rcases hocc with ⟨kw, hkw, hw⟩ | hsr
    · left
      refine ⟨kw, hkw, ?_⟩
      rw [matchCI_append kw w v hw]
      exact hv
    · right
      rw [matchSetRole_append w v hsr]
      exact hv

/-- The character just before the current scan position, given the prefix
`u` consumed since context `prev`. -/
def lastOr (prev : Option Char) : List Char → Option Char
  | [] => prev
  | c :: cs => lastOr (some c) cs

lemma lastOr_eq_getLast?_or : ∀ (u : List Char) (prev : Option Char),
    lastOr prev u = u.getLast?.or prev := by
  intro u
  induction u with
  | nil => intro prev; rfl
  | cons c cs ih =>
    intro prev
    rw [show lastOr prev (c :: cs) = lastOr (some c) cs from rfl, ih (some c)]
    cases cs with
    | nil => rfl
    | cons d ds =>
      rw [List.getLast?_cons_cons]
      cases hgl : (d :: ds).getLast? with
      | none => exact absurd hgl (by simp)
      | some a => rfl

lemma mutScan_iff : ∀ (s : List Char) (prev : Option Char),
    mutScan prev s = true ↔
      ∃ u w v, s = u ++ w ++ v ∧ IsDenyOcc w ∧
        boundaryBefore (lastOr prev u) = true ∧ noWordAhead v = true := by
  intro s
  induction s with
  | nil =>
    intro prev
    constructor
    · intro h
      simp [mutScan] at h
    · rintro ⟨u, w, v, huv, hocc, -, -⟩
      exfalso
      have hw : w = [] := by
        have := huv.symm
        simp only [List.append_eq_nil] at this
        exact this.1.2
      exact denyOcc_ne_nil hocc hw
  | cons c cs ih =>
    intro prev
    rw [show mutScan prev (c :: cs)
        = ((boundaryBefore prev && kwMatchAt (c :: cs)) || mutScan (some c) cs) from rfl]
    rw [Bool.or_eq_true, Bool.and_eq_true, kwMatchAt_iff, ih (some c)]
    constructor
    · rintro (⟨hb, w, v, hwv, hocc, hv⟩ | ⟨u, w, v, huv, hocc, hbnd, hv⟩)
      · exact ⟨[], w, v, by simpa using hwv, hocc, by simpa [lastOr] using hb, hv⟩
      · refine ⟨c :: u, w, v, by simp [huv], hocc, ?_, hv⟩
        simpa [lastOr] using hbnd
    · rintro ⟨u, w, v, huv, hocc, hbnd, hv⟩
      cases u with
      | nil =>
        left
        exact ⟨by simpa [lastOr] using hbnd, w, v, by simpa using huv, hocc, hv⟩
      | cons c' u' =>
        right
        have hc : c = c' ∧ cs = u' ++ w ++ v := by
          simpa using huv
        refine ⟨u', w, v, hc.2, hocc, ?_, hv⟩
        have : lastOr prev (c' :: u') = lastOr (some c') u' := rfl
        rw [this] at hbnd
        rwa [← hc.1] at hbnd

/-- **C2.** `isMutatingSql` returns `true` iff the statement contains, as a
case-insensitive whole-word occurrence anywhere in the text, one of the
deny-list tokens (with `SET ROLE` allowing any non-empty whitespace run
between the two words) — regardless of surrounding whitespace or casing,
and purely textually. -/
theorem mutating_classifier_law (sql : String) :
    isMutatingSql sql = true ↔ ContainsDenyWord sql.toList := by
  unfold isMutatingSql ContainsDenyWord
  rw [mutScan_iff]
  constructor <;> rintro ⟨u, w, v, h1, h2, h3, h4⟩ <;> refine ⟨u, w, v, h1, h2, ?_, h4⟩
  · rwa [lastOr_eq_getLast?_or, Option.or_none] at h3
  · rwa [lastOr_eq_getLast?_or, Option.or_none]

end AirisSbsh
